import Mathlib

set_option maxHeartbeats 1000000

set_option maxRecDepth 8000

/-
Shallow embedding of the state-recovery attack subsystem of the PRNG
laboratory:

  src/generators/mersenne_twister.py  (class MersenneTwister)
  src/generators/lcg.py               (class LCG)
  src/attaques/mt_state_recovery.py   (inverser_xor_droite,
                                       inverser_xor_gauche_mask,
                                       untemper, cloner_generateur)
  src/attaques/lcg_seed_recovery.py   (retrouver_m, retrouver_a,
                                       retrouver_c, demo prediction loop)

Unsigned 32-bit machine words are modelled as Nat, masked exactly where
the source masks; arbitrary-precision Python ints are modelled as Int
(Lean Int emod agrees with Python mod for a positive modulus).
-/

/-- Embeds the output-relevant mutable fields of class MersenneTwister:
the 624-word state array etat and the cursor index.  The constructor also
stores the seed in a field graine, but that field is never read after
initialisation, so it is not carried in the state. -/
structure MersenneTwister where
  etat : List Nat
  index : Nat

namespace MersenneTwister

/-- Class constant N: size of the state array. -/
def N : Nat := 624

/-- Class constant M: recurrence offset used by the twist. -/
def M : Nat := 397

/-- Class constant MATRIX_A. -/
def MATRIX_A : Nat := 0x9908B0DF

/-- Class constant UPPER_MASK. -/
def UPPER_MASK : Nat := 0x80000000

/-- Class constant LOWER_MASK. -/
def LOWER_MASK : Nat := 0x7FFFFFFF

/-- Class constant INIT_CONST (the Knuth initialisation constant). -/
def INIT_CONST : Nat := 0x6C078965

/-- Class constant WORD_MASK. -/
def WORD_MASK : Nat := 0xFFFFFFFF

/-- Class constant TEMPERING_B. -/
def TEMPERING_B : Nat := 0x9D2C5680

/-- Class constant TEMPERING_C. -/
def TEMPERING_C : Nat := 0xEFC60000

/-- Embeds _init_etat: word i of the freshly seeded state array.  Python
evaluates graine & WORD_MASK, which on an arbitrary (possibly negative)
int equals graine mod 2^32; every later word is derived from the previous
one and masked to 32 bits. -/
def initWord (graine : Int) : Nat → Nat
  | 0 => (graine % (2 ^ 32 : Int)).toNat
  | i + 1 =>
    (INIT_CONST * (initWord graine i ^^^ (initWord graine i >>> 30)) + (i + 1)) &&& WORD_MASK

/-- Embeds the constructor MersenneTwister(graine): the state array is
filled by _init_etat and the cursor starts at N (array exhausted). -/
def new (graine : Int) : MersenneTwister :=
  ⟨(List.range N).map (initWord graine), N⟩

/-- One iteration of the for loop of _twist at position i.  The source
mutates etat[i] in place, so later iterations read already-updated
entries; List.set reproduces that exactly. -/
def twistStep (etat : List Nat) (i : Nat) : List Nat :=
  let y := (etat.getD i 0 &&& UPPER_MASK) ||| (etat.getD ((i + 1) % N) 0 &&& LOWER_MASK)
  let v := etat.getD ((i + M) % N) 0 ^^^ (y >>> 1)
  etat.set i (if y % 2 ≠ 0 then v ^^^ MATRIX_A else v)

/-- Embeds _twist on the state array: the for loop over range(N).  The
source also resets the cursor to 0; the callers below account for that. -/
def twistEtat (etat : List Nat) : List Nat :=
  (List.range N).foldl twistStep etat

/-- Embeds _tempering: the four shift-XOR-mask stages followed by the
32-bit mask. -/
def tempering (y : Nat) : Nat :=
  let y1 := y ^^^ (y >>> 11)
  let y2 := y1 ^^^ ((y1 <<< 7) &&& TEMPERING_B)
  let y3 := y2 ^^^ ((y2 <<< 15) &&& TEMPERING_C)
  let y4 := y3 ^^^ (y3 >>> 18)
  y4 &&& WORD_MASK

/-- Embeds next(): twist first when the array is exhausted (which resets
the cursor to 0), then read the word under the cursor and advance.  The
source indexes etat[index] directly; getD with default 0 is a total
stand-in and agrees with it whenever the index is in range, which holds
in every state next is actually run on. -/
def next (g : MersenneTwister) : Nat × MersenneTwister :=
  let g := if N ≤ g.index then ⟨twistEtat g.etat, 0⟩ else g
  (tempering (g.etat.getD g.index 0), ⟨g.etat, g.index + 1⟩)

/-- Embeds generate(n): n successive calls to next, collecting the
outputs and threading the state. -/
def generate (g : MersenneTwister) : Nat → List Nat × MersenneTwister
  | 0 => ([], g)
  | n + 1 =>
    let p := next g
    let q := generate p.2 n
    (p.1 :: q.1, q.2)

end MersenneTwister

/-- Embeds the while loop of inverser_xor_droite (mt_state_recovery.py).
The source loop runs while decalage < 32 and increases decalage by shift
on every iteration, so for shift >= 1 it performs at most 31 iterations;
a fuel argument of 32 therefore reproduces it exactly.  (For shift = 0
the source loop would never terminate; the claims only involve
1 <= shift <= 31.) -/
def droiteLoop (shift : Nat) : Nat → Nat → Nat → Nat
  | 0, resultat, _ => resultat
  | fuel + 1, resultat, decalage =>
    if decalage < 32 then
      droiteLoop shift fuel
        (resultat ^^^ ((resultat >>> shift) &&&
          ((0xFFFFFFFF >>> decalage) ^^^ (0xFFFFFFFF >>> min (decalage + shift) 32))))
        (decalage + shift)
    else resultat

/-- Embeds inverser_xor_droite: resultat starts at y, decalage at shift. -/
def inverser_xor_droite (y shift : Nat) : Nat :=
  droiteLoop shift 32 y shift

/-- Embeds the while loop of inverser_xor_gauche_mask, with the same fuel
convention as droiteLoop. -/
def gaucheLoop (shift mask : Nat) : Nat → Nat → Nat → Nat
  | 0, resultat, _ => resultat
  | fuel + 1, resultat, decalage =>
    if decalage < 32 then
      gaucheLoop shift mask fuel
        (resultat ^^^ ((resultat <<< shift) &&& mask &&& (((1 <<< shift) - 1) <<< decalage)))
        (decalage + shift)
    else resultat

/-- Embeds inverser_xor_gauche_mask: resultat starts at y, decalage at
shift. -/
def inverser_xor_gauche_mask (y shift mask : Nat) : Nat :=
  gaucheLoop shift mask 32 y shift

/-- Embeds untemper: the four inverse stages applied in the reverse order
of the tempering. -/
def untemper (y : Nat) : Nat :=
  let y1 := inverser_xor_droite y 18
  let y2 := inverser_xor_gauche_mask y1 15 0xEFC60000
  let y3 := inverser_xor_gauche_mask y2 7 0x9D2C5680
  inverser_xor_droite y3 11

/-- Embeds cloner_generateur: refuse fewer than 624 observations,
otherwise untemper the first 624 outputs and install them as the state
array with the cursor at 624.  (The source builds MersenneTwister(0) and
then overwrites both fields; only the final field values matter.) -/
def cloner_generateur (observations : List Nat) : Option MersenneTwister :=
  if observations.length < 624 then none
  else some ⟨(observations.take 624).map untemper, 624⟩

/-- Embeds class LCG: the current state etat and the parameters a, c, m. -/
structure LCG where
  etat : Int
  a : Int
  c : Int
  m : Int

namespace LCG

/-- Embeds the constructor LCG(graine, a, c, m). -/
def new (graine a c m : Int) : LCG := ⟨graine, a, c, m⟩

/-- Embeds next(): one step of the recurrence, returning the new state. -/
def next (g : LCG) : Int × LCG :=
  let e := (g.a * g.etat + g.c) % g.m
  (e, { g with etat := e })

/-- Embeds generate(n). -/
def generate (g : LCG) : Nat → List Int × LCG
  | 0 => ([], g)
  | n + 1 =>
    let p := next g
    let q := generate p.2 n
    (p.1 :: q.1, q.2)

end LCG

/-- Embeds the local list diffs of retrouver_m (lcg_seed_recovery.py):
first differences of the observed outputs. -/
def diffsOf (sorties : List Int) : List Int :=
  (List.range (sorties.length - 1)).map (fun i => sorties.getD (i + 1) 0 - sorties.getD i 0)

/-- Embeds the local list multiples of retrouver_m: for each interior
index i of diffs (Python range(1, len(diffs) - 1)), the discriminant
diffs[i+1]*diffs[i-1] - diffs[i]**2, kept as its absolute value when it
is nonzero. -/
def multiplesOf (sorties : List Int) : List Nat :=
  (List.range' 1 ((diffsOf sorties).length - 1 - 1)).filterMap (fun i =>
    let val := (diffsOf sorties).getD (i + 1) 0 * (diffsOf sorties).getD (i - 1) 0 -
      ((diffsOf sorties).getD i 0) ^ 2
    if val ≠ 0 then some val.natAbs else none)

/-- Embeds retrouver_m: None when no nonzero discriminant exists,
otherwise the running gcd of the collected multiples, refused when it
collapses to 1 or below. -/
def retrouver_m (sorties : List Int) : Option Nat :=
  match multiplesOf sorties with
  | [] => none
  | m0 :: rest =>
    let m := rest.foldl Nat.gcd m0
    if 1 < m then some m else none

/-- Extended Euclid with explicit fuel: for y <= fuel it returns a pair
(a, c) with a*x + c*y = gcd(x, y) over the integers.  The fuel only pads
the recursion; the algorithm stops as soon as y reaches 0. -/
def xgcdFuel : Nat → Nat → Nat → Int × Int
  | 0, _, _ => (1, 0)
  | fuel + 1, x, y =>
    if y = 0 then (1, 0)
    else
      let p := xgcdFuel fuel y (x % y)
      (p.2, p.1 - ((x / y : Nat) : Int) * p.2)

/-- Models the Python builtin pow(b, -1, m) for m > 1 and b with
gcd(b, m) = 1: the modular multiplicative inverse of b, reduced into
[0, m).  It is realised through the extended gcd coefficient of b. -/
def powNegOneMod (b m : Int) : Int :=
  (xgcdFuel m.toNat b.toNat m.toNat).1 % m

/-- Embeds retrouver_a.  The source wraps pow(diff0, -1, m) in
try/except ValueError; the builtin raises ValueError exactly when diff0
is not invertible modulo m, that is when gcd(diff0, m) is not 1, so the
exception path is embedded as the explicit gcd test. -/
def retrouver_a (x0 x1 x2 m : Int) : Option Int :=
  let diff0 := (x1 - x0) % m
  let diff1 := (x2 - x1) % m
  if Int.gcd diff0 m = 1 then some ((diff1 * powNegOneMod diff0 m) % m) else none

/-- Embeds retrouver_c. -/
def retrouver_c (x0 x1 a m : Int) : Int :=
  (x1 - a * x0) % m

/-- Embeds the prediction loop of demo (lcg_seed_recovery.py, lines
126-134): starting from the last observed output, iterate
x := (a*x + c) mod m and collect n predictions. -/
def lcgIter (a c m x : Int) : Nat → List Int
  | 0 => []
  | n + 1 =>
    let y := (a * x + c) % m
    y :: lcgIter a c m y n

/-- Specification-side quantity for C5: the difference T_i = X_{i+1} - X_i
of the observed sequence, written directly from the spec text. -/
def diffT (sorties : List Int) (i : Nat) : Int :=
  sorties.getD (i + 1) 0 - sorties.getD i 0

/-- Specification-side quantity for C5: the discriminant
V_i = T_{i+1} * T_{i-1} - T_i^2 over interior indices. -/
def discV (sorties : List Int) (i : Nat) : Int :=
  diffT sorties (i + 1) * diffT sorties (i - 1) - diffT sorties i ^ 2

/-- Specification-side quantity for C5: the absolute values of the
nonzero discriminants, taken over the interior indices 1 .. k-2 of the
difference sequence (the sequence of k = length - 1 differences). -/
def nonzeroV (sorties : List Int) : List Nat :=
  (List.range' 1 (sorties.length - 3)).filterMap (fun i =>
    if discV sorties i ≠ 0 then some (discV sorties i).natAbs else none)

/-- Bits of the 32-bit all-ones constant. -/
theorem testBit_ffffffff (j : Nat) : (0xFFFFFFFF : Nat).testBit j = decide (j < 32) := by
  have h : (0xFFFFFFFF : Nat) = 2 ^ 32 - 1 := by norm_num
  rw [h, Nat.testBit_two_pow_sub_one]

/-- A word below 2^32 has no bit at position 32 or above. -/
theorem testBit_high_false {x : Nat} (hx : x < 2 ^ 32) {j : Nat} (hj : 32 ≤ j) :
    x.testBit j = false :=
  Nat.testBit_lt_two_pow (lt_of_lt_of_le hx (Nat.pow_le_pow_right (by norm_num) hj))

/-- A right shift never increases a natural number. -/
theorem shiftRight_le_self (x s : Nat) : x >>> s ≤ x := by
  rw [Nat.shiftRight_eq_div_pow]
  exact Nat.div_le_self x (2 ^ s)

/-- Bits of the window constant used by the loop of inverser_xor_droite:
position j is selected exactly when it lies in the window
[32 - min (d + s) 32, 32 - d). -/
theorem droite_fenetre_testBit (d s j : Nat) :
    ((0xFFFFFFFF >>> d) ^^^ (0xFFFFFFFF >>> min (d + s) 32)).testBit j =
      (decide (d + j < 32) && decide (32 ≤ d + s + j)) := by
  rw [Nat.testBit_xor, Nat.testBit_shiftRight, Nat.testBit_shiftRight,
    testBit_ffffffff, testBit_ffffffff]
  rcases Nat.le_total (d + s) 32 with h | h
  · rw [Nat.min_eq_left h]
    by_cases h1 : d + j < 32 <;> by_cases h2 : d + s + j < 32 <;>
      simp [h1, h2] <;> omega
  · rw [Nat.min_eq_right h]
    by_cases h1 : d + j < 32 <;> simp [h1] <;> omega

/-- Bit-level description of one iteration of the loop of
inverser_xor_droite. -/
theorem droiteStep_testBit (s d r j : Nat) :
    (r ^^^ ((r >>> s) &&&
        ((0xFFFFFFFF >>> d) ^^^ (0xFFFFFFFF >>> min (d + s) 32)))).testBit j =
      (r.testBit j ^^ (r.testBit (s + j) &&
        (decide (d + j < 32) && decide (32 ≤ d + s + j)))) := by
  rw [Nat.testBit_xor, Nat.testBit_and, Nat.testBit_shiftRight, droite_fenetre_testBit]

/-- Bit-level description of the forward operation y = x XOR (x >> s). -/
theorem forward_droite_testBit (x s j : Nat) :
    (x ^^^ (x >>> s)).testBit j = (x.testBit j ^^ x.testBit (s + j)) := by
  rw [Nat.testBit_xor, Nat.testBit_shiftRight]

/-- Loop invariant of inverser_xor_droite: once the high bits from
position 32 - d upward hold the bits of the preimage x and the bits below
still hold the bits of the forward image, running the loop from decalage
= d with enough fuel recovers x completely. -/
theorem droiteLoop_spec (s x : Nat) (hs : 0 < s) :
    ∀ fuel d r : Nat, 32 ≤ d + fuel →
      (∀ j, 32 - d ≤ j → r.testBit j = x.testBit j) →
      (∀ j, j < 32 - d → r.testBit j = (x ^^^ (x >>> s)).testBit j) →
      droiteLoop s fuel r d = x := by
  intro fuel
  induction fuel with
  | zero =>
    intro d r hfuel h1 h2
    exact Nat.eq_of_testBit_eq fun j => h1 j (by omega)
  | succ fuel ih =>
    intro d r hfuel h1 h2
    show (if d < 32 then droiteLoop s fuel _ (d + s) else r) = x
    by_cases hd : d < 32
    · rw [if_pos hd]
      apply ih
      · omega
      · intro j hj
        rw [droiteStep_testBit]
        by_cases hw1 : d + j < 32
        · by_cases hw2 : 32 ≤ d + s + j
          · have hr : r.testBit j = (x ^^^ (x >>> s)).testBit j := h2 j (by omega)
            have hr2 : r.testBit (s + j) = x.testBit (s + j) := h1 (s + j) (by omega)
            rw [hr, hr2, forward_droite_testBit]
            simp only [hw1, hw2, decide_True, Bool.and_true]
            cases x.testBit j <;> cases x.testBit (s + j) <;> rfl
          · omega
        · have hr : r.testBit j = x.testBit j := h1 j (by omega)
          simp [hw1, hr]
      · intro j hj
        rw [droiteStep_testBit]
        have hw2 : ¬32 ≤ d + s + j := by omega
        have hr : r.testBit j = (x ^^^ (x >>> s)).testBit j := h2 j (by omega)
        simp [hw2, hr]
    · rw [if_neg hd]
      exact Nat.eq_of_testBit_eq fun j => h1 j (by omega)

/-- The right-shift inverse primitive undoes y = x XOR (x >> s) for every
32-bit x and every positive shift. -/
theorem inverser_xor_droite_inv (x s : Nat) (hs : 0 < s) (hx : x < 2 ^ 32) :
    inverser_xor_droite (x ^^^ (x >>> s)) s = x := by
  apply droiteLoop_spec s x hs 32 s _ (by omega)
  · intro j hj
    have h32 : (32 : Nat) ≤ s + j := by omega
    rw [forward_droite_testBit, testBit_high_false hx h32, Bool.xor_false]
  · intro j _
    rfl

/-- Bits of the window constant used by the loop of
inverser_xor_gauche_mask: position j is selected exactly when it lies in
the window [d, d + s). -/
theorem gauche_fenetre_testBit (s d j : Nat) :
    (((1 <<< s) - 1) <<< d).testBit j = (decide (d ≤ j) && decide (j < d + s)) := by
  have h1 : (1 <<< s) - 1 = 2 ^ s - 1 := by rw [Nat.shiftLeft_eq, one_mul]
  rw [h1, Nat.testBit_shiftLeft, Nat.testBit_two_pow_sub_one]
  by_cases h : d ≤ j
  · simp only [ge_iff_le, h, decide_True, Bool.true_and]
    exact decide_eq_decide.mpr (by omega)
  · simp [h]

/-- Bit-level description of one iteration of the loop of
inverser_xor_gauche_mask. -/
theorem gaucheStep_testBit (s mask d r j : Nat) :
    (r ^^^ ((r <<< s) &&& mask &&& (((1 <<< s) - 1) <<< d))).testBit j =
      (r.testBit j ^^ ((decide (s ≤ j) && r.testBit (j - s)) && mask.testBit j &&
        (decide (d ≤ j) && decide (j < d + s)))) := by
  rw [Nat.testBit_xor, Nat.testBit_and, Nat.testBit_and, Nat.testBit_shiftLeft,
    gauche_fenetre_testBit]

/-- Bit-level description of the forward operation
y = x XOR ((x << s) AND mask). -/
theorem forward_gauche_testBit (x s mask j : Nat) :
    (x ^^^ ((x <<< s) &&& mask)).testBit j =
      (x.testBit j ^^ ((decide (s ≤ j) && x.testBit (j - s)) && mask.testBit j)) := by
  rw [Nat.testBit_xor, Nat.testBit_and, Nat.testBit_shiftLeft]

/-- Loop invariant of inverser_xor_gauche_mask: once the bits below d
hold the bits of the preimage x and the bits from d upward still hold the
bits of the forward image, running the loop from decalage = d with enough
fuel recovers x completely.  Only the mask needs to be a 32-bit word. -/
theorem gaucheLoop_spec (s mask x : Nat) (hs : 0 < s) (hm : mask < 2 ^ 32) :
    ∀ fuel d r : Nat, 32 ≤ d + fuel → s ≤ d →
      (∀ j, j < d → r.testBit j = x.testBit j) →
      (∀ j, d ≤ j → r.testBit j = (x ^^^ ((x <<< s) &&& mask)).testBit j) →
      gaucheLoop s mask fuel r d = x := by
  intro fuel
  induction fuel with
  | zero =>
    intro d r hfuel hsd h1 h2
    show r = x
    apply Nat.eq_of_testBit_eq
    intro j
    by_cases hj : j < d
    · exact h1 j hj
    · have hdj : d ≤ j := by omega
      rw [h2 j hdj, forward_gauche_testBit,
        testBit_high_false hm (show (32 : Nat) ≤ j by omega)]
      simp
  | succ fuel ih =>
    intro d r hfuel hsd h1 h2
    show (if d < 32 then gaucheLoop s mask fuel _ (d + s) else r) = x
    by_cases hd : d < 32
    · rw [if_pos hd]
      apply ih
      · omega
      · omega
      · intro j hj
        rw [gaucheStep_testBit]
        by_cases hw1 : d ≤ j
        · have hw2 : j < d + s := hj
          have hsj : s ≤ j := by omega
          have hjs : j - s < d := by omega
          have hr : r.testBit j = (x ^^^ ((x <<< s) &&& mask)).testBit j := h2 j hw1
          have hr2 : r.testBit (j - s) = x.testBit (j - s) := h1 (j - s) hjs
          rw [hr, hr2, forward_gauche_testBit]
          simp only [hw1, hw2, hsj, decide_True, Bool.true_and, Bool.and_true]
          cases x.testBit j <;> cases x.testBit (j - s) <;> cases mask.testBit j <;> rfl
        · have hj2 : j < d := by omega
          have hw2 : ¬d ≤ j := hw1
          rw [h1 j hj2]
          simp [hw2]
      · intro j hj
        rw [gaucheStep_testBit]
        have hw2 : ¬j < d + s := by omega
        have hdj : d ≤ j := by omega
        rw [h2 j hdj]
        simp [hw2]
    · rw [if_neg hd]
      apply Nat.eq_of_testBit_eq
      intro j
      by_cases hj : j < d
      · exact h1 j hj
      · have hdj : d ≤ j := by omega
        rw [h2 j hdj, forward_gauche_testBit,
          testBit_high_false hm (show (32 : Nat) ≤ j by omega)]
        simp

/-- The left-shift-masked inverse primitive undoes
y = x XOR ((x << s) AND mask) for every x, every positive shift and every
32-bit mask. -/
theorem inverser_xor_gauche_mask_inv (x s mask : Nat) (hs : 0 < s) (hm : mask < 2 ^ 32) :
    inverser_xor_gauche_mask (x ^^^ ((x <<< s) &&& mask)) s mask = x := by
  apply gaucheLoop_spec s mask x hs hm 32 s _ (by omega) (Nat.le_refl s)
  · intro j hj
    rw [forward_gauche_testBit]
    have hsj : ¬s ≤ j := by omega
    simp [hsj]
  · intro j _
    rfl

/-- Masking with the 32-bit all-ones word is the identity on 32-bit
words. -/
theorem and_word_mask_of_lt {a : Nat} (ha : a < 2 ^ 32) : a &&& 0xFFFFFFFF = a := by
  apply Nat.eq_of_testBit_eq
  intro j
  rw [Nat.testBit_and, testBit_ffffffff]
  by_cases hj : j < 32
  · simp [hj]
  · have hh : a.testBit j = false := testBit_high_false ha (by omega)
    simp [hj, hh]

/-- The tempering transform always lands in the 32-bit range. -/
theorem tempering_lt (y : Nat) : MersenneTwister.tempering y < 2 ^ 32 := by
  simp only [MersenneTwister.tempering, MersenneTwister.WORD_MASK]
  exact lt_of_le_of_lt Nat.and_le_right (by norm_num)

/-- Untempering inverts tempering on every 32-bit word. -/
theorem untemper_tempering (y : Nat) (hy : y < 2 ^ 32) :
    untemper (MersenneTwister.tempering y) = y := by
  simp only [MersenneTwister.tempering, MersenneTwister.TEMPERING_B,
    MersenneTwister.TEMPERING_C, MersenneTwister.WORD_MASK, untemper]
  set y1 := y ^^^ (y >>> 11) with hy1
  set y2 := y1 ^^^ ((y1 <<< 7) &&& 0x9D2C5680) with hy2
  set y3 := y2 ^^^ ((y2 <<< 15) &&& 0xEFC60000) with hy3
  have h1 : y1 < 2 ^ 32 := by
    rw [hy1]
    exact Nat.xor_lt_two_pow hy (lt_of_le_of_lt (shiftRight_le_self y 11) hy)
  have h2 : y2 < 2 ^ 32 := by
    rw [hy2]
    exact Nat.xor_lt_two_pow h1 (Nat.and_lt_two_pow _ (by norm_num))
  have h3 : y3 < 2 ^ 32 := by
    rw [hy3]
    exact Nat.xor_lt_two_pow h2 (Nat.and_lt_two_pow _ (by norm_num))
  have h4 : y3 ^^^ (y3 >>> 18) < 2 ^ 32 :=
    Nat.xor_lt_two_pow h3 (lt_of_le_of_lt (shiftRight_le_self y3 18) h3)
  rw [and_word_mask_of_lt h4, inverser_xor_droite_inv y3 18 (by norm_num) h3, hy3,
    inverser_xor_gauche_mask_inv y2 15 0xEFC60000 (by norm_num) (by norm_num), hy2,
    inverser_xor_gauche_mask_inv y1 7 0x9D2C5680 (by norm_num) (by norm_num), hy1,
    inverser_xor_droite_inv y 11 (by norm_num) hy]

/-- Tempering inverts untempering on every 32-bit word: tempering is a
bijection of the 32-bit range because it has a left inverse there, so the
left inverse is also a right inverse. -/
theorem tempering_untemper (y : Nat) (hy : y < 2 ^ 32) :
    MersenneTwister.tempering (untemper y) = y := by
  have hinj : Function.Injective
      (fun a : Fin (2 ^ 32) => (⟨MersenneTwister.tempering a.1, tempering_lt a.1⟩ : Fin (2 ^ 32))) := by
    intro a b hab
    have hval : MersenneTwister.tempering a.1 = MersenneTwister.tempering b.1 :=
      congrArg Fin.val hab
    have := congrArg untemper hval
    rw [untemper_tempering a.1 a.2, untemper_tempering b.1 b.2] at this
    exact Fin.ext this
  have hsurj := Finite.injective_iff_surjective.mp hinj
  obtain ⟨a, ha⟩ := hsurj ⟨y, hy⟩
  have hay : MersenneTwister.tempering a.1 = y := congrArg Fin.val ha
  rw [← hay, untemper_tempering a.1 a.2]

/-- Reading any position of a 32-bit-bounded word list through getD with
default 0 stays below 2^32. -/
theorem getD_lt_of_forall {l : List Nat} (hb : ∀ w ∈ l, w < 2 ^ 32) (i : Nat) :
    l.getD i 0 < 2 ^ 32 := by
  by_cases hi : i < l.length
  · rw [List.getD_eq_getElem l 0 hi]
    exact hb _ (List.getElem_mem hi)
  · rw [List.getD_eq_default l 0 (by omega)]
    norm_num

/-- The value written by one twist iteration is a 32-bit word. -/
theorem mt_mix_lt {a y m2 : Nat} (ha : a < 2 ^ 32) (hy : y < 2 ^ 32) (hm : m2 < 2 ^ 32) :
    (if y % 2 ≠ 0 then (a ^^^ (y >>> 1)) ^^^ m2 else a ^^^ (y >>> 1)) < 2 ^ 32 := by
  have hv : a ^^^ (y >>> 1) < 2 ^ 32 :=
    Nat.xor_lt_two_pow ha (lt_of_le_of_lt (shiftRight_le_self y 1) hy)
  split
  · exact Nat.xor_lt_two_pow hv hm
  · exact hv

/-- One twist iteration preserves the length of the state array. -/
theorem twistStep_length (l : List Nat) (i : Nat) :
    (MersenneTwister.twistStep l i).length = l.length := by
  simp [MersenneTwister.twistStep]

/-- One twist iteration preserves 32-bit boundedness of the state array. -/
theorem twistStep_bounded {l : List Nat} (hb : ∀ w ∈ l, w < 2 ^ 32) (i : Nat) :
    ∀ w ∈ MersenneTwister.twistStep l i, w < 2 ^ 32 := by
  intro w hw
  simp only [MersenneTwister.twistStep] at hw
  rcases List.mem_or_eq_of_mem_set hw with h | h
  · exact hb w h
  · subst h
    exact mt_mix_lt (getD_lt_of_forall hb _)
      (Nat.or_lt_two_pow
        (Nat.and_lt_two_pow _ (by norm_num [MersenneTwister.UPPER_MASK]))
        (Nat.and_lt_two_pow _ (by norm_num [MersenneTwister.LOWER_MASK])))
      (by norm_num [MersenneTwister.MATRIX_A])

/-- Folding twist iterations preserves the length of the state array. -/
theorem foldl_twistStep_length (is : List Nat) (l : List Nat) :
    (is.foldl MersenneTwister.twistStep l).length = l.length := by
  induction is generalizing l with
  | nil => rfl
  | cons a as ih => rw [List.foldl_cons, ih, twistStep_length]

/-- Folding twist iterations preserves 32-bit boundedness. -/
theorem foldl_twistStep_bounded (is : List Nat) {l : List Nat} (hb : ∀ w ∈ l, w < 2 ^ 32) :
    ∀ w ∈ is.foldl MersenneTwister.twistStep l, w < 2 ^ 32 := by
  induction is generalizing l with
  | nil => exact hb
  | cons a as ih => exact fun w hw => ih (twistStep_bounded hb a) w hw

/-- The twist preserves the length of the state array. -/
theorem twistEtat_length (l : List Nat) : (MersenneTwister.twistEtat l).length = l.length :=
  foldl_twistStep_length _ l

/-- The twist preserves 32-bit boundedness of the state array. -/
theorem twistEtat_bounded {l : List Nat} (hb : ∀ w ∈ l, w < 2 ^ 32) :
    ∀ w ∈ MersenneTwister.twistEtat l, w < 2 ^ 32 :=
  foldl_twistStep_bounded _ hb

/-- Every word produced by the seeding routine is a 32-bit word. -/
theorem initWord_lt (graine : Int) (i : Nat) : MersenneTwister.initWord graine i < 2 ^ 32 := by
  cases i with
  | zero =>
    show (graine % (2 ^ 32 : Int)).toNat < 2 ^ 32
    have h1 : (0 : Int) ≤ graine % (2 ^ 32 : Int) := Int.emod_nonneg graine (by norm_num)
    have h2 : graine % (2 ^ 32 : Int) < (2 ^ 32 : Int) := Int.emod_lt_of_pos graine (by norm_num)
    rw [Int.toNat_lt h1]
    exact_mod_cast h2
  | succ i =>
    exact Nat.and_lt_two_pow _ (by norm_num [MersenneTwister.WORD_MASK])

/-- Untempering word by word undoes tempering word by word on a
32-bit-bounded word list. -/
theorem map_untemper_map_tempering {l : List Nat} (hb : ∀ w ∈ l, w < 2 ^ 32) :
    (l.map MersenneTwister.tempering).map untemper = l := by
  rw [List.map_map]
  have h : ∀ a ∈ l, (untemper ∘ MersenneTwister.tempering) a = id a := fun a ha =>
    untemper_tempering a (hb a ha)
  rw [List.map_congr_left h, List.map_id]

/-- Generating a + b outputs is generating a outputs and then b more from
the state reached. -/
theorem generate_add (g : MersenneTwister) (a b : Nat) :
    MersenneTwister.generate g (a + b) =
      ((MersenneTwister.generate g a).1 ++
          (MersenneTwister.generate (MersenneTwister.generate g a).2 b).1,
        (MersenneTwister.generate (MersenneTwister.generate g a).2 b).2) := by
  induction a generalizing g with
  | zero => simp [MersenneTwister.generate]
  | succ a ih =>
    rw [Nat.succ_add]
    simp only [MersenneTwister.generate, ih, List.cons_append]

/-- As long as the cursor stays within the array, generate reads and
tempers the words under the cursor, twisting never fires, and the state
array is unchanged. -/
theorem generate_no_twist (e : List Nat) (he : e.length = 624) :
    ∀ k i, i + k ≤ 624 →
      MersenneTwister.generate ⟨e, i⟩ k =
        (((e.drop i).take k).map MersenneTwister.tempering, ⟨e, i + k⟩) := by
  intro k
  induction k with
  | zero =>
    intro i hik
    simp [MersenneTwister.generate]
  | succ k ih =>
    intro i hik
    have hi : i < 624 := by omega
    have hnext : MersenneTwister.next ⟨e, i⟩ =
        (MersenneTwister.tempering (e.getD i 0), ⟨e, i + 1⟩) := by
      simp only [MersenneTwister.next]
      rw [if_neg (show ¬MersenneTwister.N ≤ i by simp only [MersenneTwister.N]; omega)]
    have harith : i + (k + 1) = i + 1 + k := by omega
    rw [harith]
    simp only [MersenneTwister.generate, hnext]
    rw [ih (i + 1) (by omega)]
    have hdrop : e.drop i = e.getD i 0 :: e.drop (i + 1) := by
      rw [List.drop_eq_getElem_cons (show i < e.length by omega)]
      rw [List.getD_eq_getElem e 0 (show i < e.length by omega)]
    rw [hdrop, List.take_succ_cons, List.map_cons]

/-- On a fresh-cursor state, next reads word 0 without twisting. -/
theorem next_cursor_zero (l : List Nat) :
    MersenneTwister.next ⟨l, 0⟩ =
      (MersenneTwister.tempering (l.getD 0 0), ⟨l, 1⟩) := rfl

/-- On an exhausted state, next twists first and then reads word 0. -/
theorem next_exhausted (e : List Nat) (i : Nat) (hi : 624 ≤ i) :
    MersenneTwister.next ⟨e, i⟩ =
      (MersenneTwister.tempering ((MersenneTwister.twistEtat e).getD 0 0),
        ⟨MersenneTwister.twistEtat e, 1⟩) := by
  unfold MersenneTwister.next
  rw [if_pos (show MersenneTwister.N ≤ (⟨e, i⟩ : MersenneTwister).index from hi)]

/-- A generate call on an exhausted state behaves like one on the twisted
array with a fresh cursor. -/
theorem generate_twist_kick (e : List Nat) (i k : Nat) (hi : 624 ≤ i) :
    MersenneTwister.generate ⟨e, i⟩ (k + 1) =
      MersenneTwister.generate ⟨MersenneTwister.twistEtat e, 0⟩ (k + 1) := by
  simp only [MersenneTwister.generate, next_exhausted e i hi, next_cursor_zero]

/-- C1: for every seed S and every n, generating 624 + n outputs from a
fresh MersenneTwister(S), feeding the first 624 outputs to
cloner_generateur yields a clone whose next n outputs are exactly the
outputs 625 .. 624+n of the original, bit for bit, across the twist
boundaries and for arbitrarily large n. -/
theorem C1_mt_clone_predicts_exactly (S : Int) (n : Nat) :
    ∃ clone,
      cloner_generateur
          ((MersenneTwister.generate (MersenneTwister.new S) (624 + n)).1.take 624) =
        some clone ∧
      (MersenneTwister.generate clone n).1 =
        (MersenneTwister.generate (MersenneTwister.new S) (624 + n)).1.drop 624 := by
  set e0 := (List.range 624).map (MersenneTwister.initWord S) with he0
  have hnew : MersenneTwister.new S = ⟨e0, 624⟩ := by rw [he0]; rfl
  have he0b : ∀ w ∈ e0, w < 2 ^ 32 := by
    intro w hw
    rw [he0] at hw
    obtain ⟨i, -, rfl⟩ := List.mem_map.mp hw
    exact initWord_lt S i
  set e1 := MersenneTwister.twistEtat e0 with he1
  have he1len : e1.length = 624 := by
    rw [he1, twistEtat_length, he0, List.length_map, List.length_range]
  have he1b : ∀ w ∈ e1, w < 2 ^ 32 := by rw [he1]; exact twistEtat_bounded he0b
  have hsplit : MersenneTwister.generate ⟨e0, 624⟩ (624 + n) =
      MersenneTwister.generate ⟨e1, 0⟩ (624 + n) := by
    rw [show 624 + n = (623 + n) + 1 by omega,
      generate_twist_kick e0 624 (623 + n) (Nat.le_refl 624), he1]
  have hrun : MersenneTwister.generate ⟨e1, 0⟩ 624 =
      (e1.map MersenneTwister.tempering, ⟨e1, 624⟩) := by
    have h := generate_no_twist e1 he1len 624 0 (by omega)
    rw [List.drop_zero] at h
    rw [h]
    have htk : e1.take 624 = e1 := by
      rw [← he1len, List.take_length]
    rw [htk]
  have hgen : MersenneTwister.generate ⟨e1, 0⟩ (624 + n) =
      (e1.map MersenneTwister.tempering ++ (MersenneTwister.generate ⟨e1, 624⟩ n).1,
        (MersenneTwister.generate ⟨e1, 624⟩ n).2) := by
    rw [generate_add ⟨e1, 0⟩ 624 n, hrun]
  have hmaplen : (e1.map MersenneTwister.tempering).length = 624 := by
    rw [List.length_map, he1len]
  have htake : (MersenneTwister.generate (MersenneTwister.new S) (624 + n)).1.take 624 =
      e1.map MersenneTwister.tempering := by
    rw [hnew, hsplit, hgen]
    show (e1.map MersenneTwister.tempering ++
      (MersenneTwister.generate ⟨e1, 624⟩ n).1).take 624 = e1.map MersenneTwister.tempering
    rw [← hmaplen, List.take_left]
  have hdrop : (MersenneTwister.generate (MersenneTwister.new S) (624 + n)).1.drop 624 =
      (MersenneTwister.generate ⟨e1, 624⟩ n).1 := by
    rw [hnew, hsplit, hgen]
    show (e1.map MersenneTwister.tempering ++
      (MersenneTwister.generate ⟨e1, 624⟩ n).1).drop 624 = (MersenneTwister.generate ⟨e1, 624⟩ n).1
    rw [← hmaplen, List.drop_left]
  refine ⟨⟨e1, 624⟩, ?_, ?_⟩
  · rw [htake]
    simp only [cloner_generateur]
    rw [if_neg (show ¬(e1.map MersenneTwister.tempering).length < 624 by rw [hmaplen]; omega)]
    have htk2 : (e1.map MersenneTwister.tempering).take 624 = e1.map MersenneTwister.tempering := by
      have h := List.take_length (e1.map MersenneTwister.tempering)
      rwa [hmaplen] at h
    rw [htk2, map_untemper_map_tempering he1b]
  · rw [hdrop]

/-- C2: for every 32-bit word y, untempering the tempering of y gives
back y, and tempering the untempering of y gives back y; in particular
both roundtrips hold at the boundary values 0, 0xFFFFFFFF, 0x80000000
and 1. -/
theorem C2_temper_untemper_roundtrip (y : Nat) (hy : y < 2 ^ 32) :
    untemper (MersenneTwister.tempering y) = y ∧
      MersenneTwister.tempering (untemper y) = y :=
  ⟨untemper_tempering y hy, tempering_untemper y hy⟩

/-- Witness for C2 at the four boundary values named by the claim. -/
theorem C2_temper_untemper_roundtrip_witness :
    (untemper (MersenneTwister.tempering 0x00000000) = 0x00000000 ∧
      MersenneTwister.tempering (untemper 0x00000000) = 0x00000000) ∧
    (untemper (MersenneTwister.tempering 0xFFFFFFFF) = 0xFFFFFFFF ∧
      MersenneTwister.tempering (untemper 0xFFFFFFFF) = 0xFFFFFFFF) ∧
    (untemper (MersenneTwister.tempering 0x80000000) = 0x80000000 ∧
      MersenneTwister.tempering (untemper 0x80000000) = 0x80000000) ∧
    (untemper (MersenneTwister.tempering 0x00000001) = 0x00000001 ∧
      MersenneTwister.tempering (untemper 0x00000001) = 0x00000001) :=
  ⟨C2_temper_untemper_roundtrip 0x00000000 (by norm_num),
   C2_temper_untemper_roundtrip 0xFFFFFFFF (by norm_num),
   C2_temper_untemper_roundtrip 0x80000000 (by norm_num),
   C2_temper_untemper_roundtrip 0x00000001 (by norm_num)⟩

/-- C3: for every 32-bit word and every shift between 1 and 31, the
right-shift inverse primitive undoes y = x XOR (x >> shift) exactly. -/
theorem C3_inverser_xor_droite_undoes (y' s : Nat) (hy : y' < 2 ^ 32)
    (hs1 : 1 ≤ s) (hs2 : s ≤ 31) :
    inverser_xor_droite (y' ^^^ (y' >>> s)) s = y' :=
  inverser_xor_droite_inv y' s hs1 hy

/-- Witness for C3 at a concrete word and the shift 11 used by the
tempering. -/
theorem C3_inverser_xor_droite_undoes_witness :
    inverser_xor_droite (0xDEADBEEF ^^^ (0xDEADBEEF >>> 11)) 11 = 0xDEADBEEF :=
  C3_inverser_xor_droite_undoes 0xDEADBEEF 11 (by norm_num) (by norm_num) (by norm_num)

/-- C4: for every 32-bit word, every shift between 1 and 31 and every
32-bit mask, the left-shift-masked inverse primitive undoes
y = x XOR ((x << shift) AND mask) exactly. -/
theorem C4_inverser_xor_gauche_mask_undoes (y' s mask : Nat) (hy : y' < 2 ^ 32)
    (hs1 : 1 ≤ s) (hs2 : s ≤ 31) (hm : mask < 2 ^ 32) :
    inverser_xor_gauche_mask (y' ^^^ ((y' <<< s) &&& mask)) s mask = y' :=
  inverser_xor_gauche_mask_inv y' s mask hs1 hm

/-- Witness for C4 at a concrete word with the shift 7 and mask used by
the tempering. -/
theorem C4_inverser_xor_gauche_mask_undoes_witness :
    inverser_xor_gauche_mask (0xDEADBEEF ^^^ ((0xDEADBEEF <<< 7) &&& 0x9D2C5680)) 7 0x9D2C5680 =
      0xDEADBEEF :=
  C4_inverser_xor_gauche_mask_undoes 0xDEADBEEF 7 0x9D2C5680 (by norm_num) (by norm_num)
    (by norm_num) (by norm_num)

/-- C8: on fewer than 624 observations, cloner_generateur returns the
explicit failure value none and never builds a generator. -/
theorem C8_cloner_insufficient (observations : List Nat) (h : observations.length < 624) :
    cloner_generateur observations = none := by
  simp only [cloner_generateur]
  rw [if_pos h]

/-- Witness for C8 on the empty observation list. -/
theorem C8_cloner_insufficient_witness : cloner_generateur [] = none :=
  C8_cloner_insufficient [] (by decide)

/-- The difference list has one entry less than the observation list. -/
theorem diffsOf_length (sorties : List Int) :
    (diffsOf sorties).length = sorties.length - 1 := by
  simp [diffsOf]

/-- In range, the difference list agrees with the specification-side
difference T. -/
theorem diffsOf_getD (sorties : List Int) (i : Nat) (hi : i < sorties.length - 1) :
    (diffsOf sorties).getD i 0 = diffT sorties i := by
  have hlen : i < (diffsOf sorties).length := by rw [diffsOf_length]; omega
  rw [List.getD_eq_getElem _ 0 hlen]
  simp [diffsOf, diffT]

/-- The multiples list collected by retrouver_m is exactly the
specification-side list of absolute values of nonzero discriminants. -/
theorem multiplesOf_eq_nonzeroV (sorties : List Int) :
    multiplesOf sorties = nonzeroV sorties := by
  simp only [multiplesOf, nonzeroV, diffsOf_length]
  rw [show sorties.length - 1 - 1 - 1 = sorties.length - 3 by omega]
  apply List.filterMap_congr
  intro i hi
  rw [List.mem_range'_1] at hi
  have h1 : i + 1 < sorties.length - 1 := by omega
  have h2 : i - 1 < sorties.length - 1 := by omega
  have h3 : i < sorties.length - 1 := by omega
  rw [diffsOf_getD _ _ h1, diffsOf_getD _ _ h2, diffsOf_getD _ _ h3]
  rfl

/-- Folding gcd from the left out of an accumulator is the gcd of the
accumulator with the gcd of the whole list. -/
theorem foldl_gcd_eq (l : List Nat) (a : Nat) :
    l.foldl Nat.gcd a = Nat.gcd a (l.foldr Nat.gcd 0) := by
  induction l generalizing a with
  | nil => simp
  | cons x xs ih => rw [List.foldl_cons, ih, List.foldr_cons, Nat.gcd_assoc]

/-- The multiples list is empty exactly when every interior discriminant
vanishes. -/
theorem nonzeroV_eq_nil_iff (sorties : List Int) :
    nonzeroV sorties = [] ↔
      ∀ i ∈ List.range' 1 (sorties.length - 3), discV sorties i = 0 := by
  rw [nonzeroV, List.filterMap_eq_nil_iff]
  constructor
  · intro h i hi
    have hh := h i hi
    by_contra hne
    rw [if_pos hne] at hh
    exact Option.some_ne_none _ hh
  · intro h i hi
    rw [if_neg (by simp [h i hi])]

/-- Every member of the multiples list is positive. -/
theorem nonzeroV_pos (sorties : List Int) {v : Nat} (hv : v ∈ nonzeroV sorties) : 0 < v := by
  simp only [nonzeroV, List.mem_filterMap] at hv
  obtain ⟨i, -, hi⟩ := hv
  by_cases h : discV sorties i ≠ 0
  · rw [if_pos h] at hi
    rw [← Option.some.inj hi]
    exact Int.natAbs_pos.mpr h
  · rw [if_neg h] at hi
    cases hi

/-- When the multiples list is empty, retrouver_m fails. -/
theorem retrouver_m_nil (sorties : List Int) (h : multiplesOf sorties = []) :
    retrouver_m sorties = none := by
  unfold retrouver_m
  rw [h]

/-- When the multiples list is nonempty, retrouver_m returns the running
gcd when it exceeds 1 and fails otherwise. -/
theorem retrouver_m_cons (sorties : List Int) (m0 : Nat) (rest : List Nat)
    (h : multiplesOf sorties = m0 :: rest) :
    retrouver_m sorties =
      if 1 < rest.foldl Nat.gcd m0 then some (rest.foldl Nat.gcd m0) else none := by
  unfold retrouver_m
  rw [h]

/-- With fewer than 4 observations there is no discriminant at all, so
the multiples list is empty. -/
theorem multiplesOf_short (sorties : List Int) (h : sorties.length < 4) :
    multiplesOf sorties = [] := by
  simp only [multiplesOf, diffsOf_length]
  rw [show sorties.length - 1 - 1 - 1 = 0 by omega]
  simp

/-- C5: on at least 5 observations, retrouver_m returns none exactly when
every interior discriminant V_i is zero or the gcd of the absolute values
of the nonzero V_i equals 1; otherwise it returns that gcd. -/
theorem C5_retrouver_m_caracterisation (sorties : List Int) (h5 : 5 ≤ sorties.length) :
    (retrouver_m sorties = none ↔
      (∀ i ∈ List.range' 1 (sorties.length - 3), discV sorties i = 0) ∨
        (nonzeroV sorties).foldr Nat.gcd 0 = 1) ∧
    (¬((∀ i ∈ List.range' 1 (sorties.length - 3), discV sorties i = 0) ∨
        (nonzeroV sorties).foldr Nat.gcd 0 = 1) →
      retrouver_m sorties = some ((nonzeroV sorties).foldr Nat.gcd 0)) := by
  have hmn := multiplesOf_eq_nonzeroV sorties
  rcases hEq : multiplesOf sorties with - | ⟨m0, rest⟩
  · have hnil : nonzeroV sorties = [] := by rw [← hmn, hEq]
    have hall := (nonzeroV_eq_nil_iff sorties).mp hnil
    constructor
    · rw [retrouver_m_nil sorties hEq]
      exact ⟨fun _ => Or.inl hall, fun _ => rfl⟩
    · intro hcon
      exact absurd (Or.inl hall) hcon
  · have hcons : nonzeroV sorties = m0 :: rest := by rw [← hmn, hEq]
    have hm0 : 0 < m0 := nonzeroV_pos sorties (hcons ▸ List.mem_cons_self m0 rest)
    have hfold : rest.foldl Nat.gcd m0 = (nonzeroV sorties).foldr Nat.gcd 0 := by
      rw [hcons, List.foldr_cons, foldl_gcd_eq]
    have hG0 : (nonzeroV sorties).foldr Nat.gcd 0 ≠ 0 := by
      rw [hcons, List.foldr_cons]
      intro h0
      rcases Nat.gcd_eq_zero_iff.mp h0 with ⟨h00, -⟩
      omega
    have hnotall : ¬∀ i ∈ List.range' 1 (sorties.length - 3), discV sorties i = 0 := by
      intro hall
      have := (nonzeroV_eq_nil_iff sorties).mpr hall
      rw [hcons] at this
      cases this
    rw [retrouver_m_cons sorties m0 rest hEq, hfold]
    constructor
    · constructor
      · intro hnone
        by_cases h1 : 1 < (nonzeroV sorties).foldr Nat.gcd 0
        · rw [if_pos h1] at hnone
          cases hnone
        · exact Or.inr (by omega)
      · intro hor
        rcases hor with hall | h1
        · exact absurd hall hnotall
        · rw [if_neg (by omega)]
    · intro hcon
      have h1 : (nonzeroV sorties).foldr Nat.gcd 0 ≠ 1 := fun h => hcon (Or.inr h)
      rw [if_pos (by omega)]

/-- Witness for C5 on a concrete 5-element sequence whose discriminants
are 2 and 0, so recovery returns 2. -/
theorem C5_retrouver_m_caracterisation_witness :
    retrouver_m [0, 1, 3, 9, 27] = some ((nonzeroV [0, 1, 3, 9, 27]).foldr Nat.gcd 0) :=
  (C5_retrouver_m_caracterisation [0, 1, 3, 9, 27] (by decide)).2 (by decide)

/-- C9 counterexample: a 4-element observation list on which retrouver_m
succeeds with the modulus 2, refuting the claim that every list shorter
than 5 is rejected. -/
theorem C9_counterexample_four_elements :
    ([0, 1, 3, 9] : List Int).length < 5 ∧ retrouver_m [0, 1, 3, 9] = some 2 := by
  constructor
  · decide
  · decide

/-- C9 (amended): with fewer than 4 observations there is no discriminant
at all and retrouver_m always reports failure; a 4-element list already
carries one discriminant and can succeed. -/
theorem C9_retrouver_m_short_none (sorties : List Int) (h : sorties.length < 4) :
    retrouver_m sorties = none :=
  retrouver_m_nil sorties (multiplesOf_short sorties h)

/-- Witness for the amended C9 on a concrete 2-element list. -/
theorem C9_retrouver_m_short_none_witness : retrouver_m [5, 6] = none :=
  C9_retrouver_m_short_none [5, 6] (by decide)

/-- C10: retrouver_m is total in the embedding and returns either none or
a positive modulus; every list with fewer than 4 elements yields none. -/
theorem C10_retrouver_m_total (sorties : List Int) :
    (sorties.length < 4 → retrouver_m sorties = none) ∧
    (∀ mm, retrouver_m sorties = some mm → 0 < mm) := by
  constructor
  · intro h
    exact retrouver_m_nil sorties (multiplesOf_short sorties h)
  · intro mm hmm
    rcases hEq : multiplesOf sorties with - | ⟨m0, rest⟩
    · rw [retrouver_m_nil sorties hEq] at hmm
      cases hmm
    · rw [retrouver_m_cons sorties m0 rest hEq] at hmm
      by_cases h1 : 1 < rest.foldl Nat.gcd m0
      · rw [if_pos h1] at hmm
        have := Option.some.inj hmm
        omega
      · rw [if_neg h1] at hmm
        cases hmm

/-- Witness for C10: the empty list is rejected, and on a successful run
the recovered modulus is positive. -/
theorem C10_retrouver_m_total_witness :
    retrouver_m ([] : List Int) = none ∧ (0 : Nat) < 2 :=
  ⟨(C10_retrouver_m_total []).1 (by decide),
   (C10_retrouver_m_total [0, 1, 3, 9, 27]).2 2 (by decide)⟩

/-- Bezout identity of the fuel-driven extended Euclid, valid as soon as
the fuel dominates the second argument. -/
theorem xgcdFuel_bezout : ∀ (fuel x y : Nat), y ≤ fuel →
    (xgcdFuel fuel x y).1 * x + (xgcdFuel fuel x y).2 * y = (Nat.gcd x y : Int) := by
  intro fuel
  induction fuel with
  | zero =>
    intro x y hy
    have h0 : y = 0 := by omega
    subst h0
    simp [xgcdFuel]
  | succ fuel ih =>
    intro x y hy
    by_cases h0 : y = 0
    · subst h0
      simp [xgcdFuel]
    · have hstep : xgcdFuel (fuel + 1) x y =
          ((xgcdFuel fuel y (x % y)).2,
            (xgcdFuel fuel y (x % y)).1 - ((x / y : Nat) : Int) * (xgcdFuel fuel y (x % y)).2) := by
        show (if y = 0 then _ else _) = _
        rw [if_neg h0]
      have hmod : x % y < y := Nat.mod_lt x (by omega)
      have hIH := ih y (x % y) (by omega)
      have hgcd : Nat.gcd x y = Nat.gcd y (x % y) := by
        rw [Nat.gcd_comm x y, Nat.gcd_rec y x, Nat.gcd_comm]
      have hcast : (y : Int) * ((x / y : Nat) : Int) + ((x % y : Nat) : Int) = (x : Int) := by
        exact_mod_cast Nat.div_add_mod x y
      have hr : ((x % y : Nat) : Int) = (x : Int) - ((x / y : Nat) : Int) * (y : Int) := by
        linarith [hcast]
      rw [hstep, hgcd, ← hIH, hr]
      ring

/-- The modelled pow(b, -1, m) is a modular inverse of b whenever
gcd(b, m) = 1, for nonnegative b and m > 1. -/
theorem powNegOneMod_spec (b m : Int) (hm : 1 < m) (hb0 : 0 ≤ b)
    (hg : Int.gcd b m = 1) : Int.ModEq m (b * powNegOneMod b m) 1 := by
  have hbn : (b.toNat : Int) = b := Int.toNat_of_nonneg hb0
  have hmn : (m.toNat : Int) = m := Int.toNat_of_nonneg (by omega)
  have hgn : Nat.gcd b.toNat m.toNat = 1 := by
    have h1 : b.natAbs = b.toNat := by omega
    have h2 : m.natAbs = m.toNat := by omega
    rw [Int.gcd_def, h1, h2] at hg
    exact hg
  have hbez := xgcdFuel_bezout m.toNat b.toNat m.toNat (Nat.le_refl _)
  rw [hgn, hbn, hmn] at hbez
  have hb1 : (xgcdFuel m.toNat b.toNat m.toNat).1 * b +
      (xgcdFuel m.toNat b.toNat m.toNat).2 * m = 1 := by exact_mod_cast hbez
  have step1 : Int.ModEq m (powNegOneMod b m) ((xgcdFuel m.toNat b.toNat m.toNat).1) :=
    Int.emod_emod_of_dvd _ dvd_rfl
  have step2 : Int.ModEq m (b * powNegOneMod b m)
      (b * (xgcdFuel m.toNat b.toNat m.toNat).1) :=
    step1.mul_left b
  have step3 : Int.ModEq m (b * (xgcdFuel m.toNat b.toNat m.toNat).1) 1 := by
    rw [Int.modEq_iff_dvd]
    exact ⟨(xgcdFuel m.toNat b.toNat m.toNat).2, by linarith [hb1]⟩
  exact step2.trans step3

/-- C6: for m > 1, retrouver_a returns the residue
(x2 - x1) * (x1 - x0)^(-1) mod m, characterised as the unique r in
[0, m) with (x1 - x0) * r congruent to x2 - x1, whenever (x1 - x0) mod m
is invertible modulo m; otherwise it returns none. -/
theorem C6_retrouver_a_spec (x0 x1 x2 m : Int) (hm : 1 < m) :
    (Int.gcd ((x1 - x0) % m) m = 1 →
      ∃ r, retrouver_a x0 x1 x2 m = some r ∧ 0 ≤ r ∧ r < m ∧
        Int.ModEq m ((x1 - x0) * r) (x2 - x1)) ∧
    (Int.gcd ((x1 - x0) % m) m ≠ 1 → retrouver_a x0 x1 x2 m = none) := by
  have hm0 : m ≠ 0 := by omega
  have hmpos : 0 < m := by omega
  constructor
  · intro hg
    refine ⟨((x2 - x1) % m * powNegOneMod ((x1 - x0) % m) m) % m, ?_, ?_, ?_, ?_⟩
    · simp only [retrouver_a]
      rw [if_pos hg]
    · exact Int.emod_nonneg _ hm0
    · exact Int.emod_lt_of_pos _ hmpos
    · set d0 := (x1 - x0) % m with hd0
      set d1 := (x2 - x1) % m with hd1
      have hinv : Int.ModEq m (d0 * powNegOneMod d0 m) 1 :=
        powNegOneMod_spec d0 m hm (Int.emod_nonneg _ hm0) hg
      have h0 : Int.ModEq m d0 (x1 - x0) := Int.emod_emod_of_dvd _ dvd_rfl
      have h1 : Int.ModEq m d1 (x2 - x1) := Int.emod_emod_of_dvd _ dvd_rfl
      have h2 : Int.ModEq m ((d1 * powNegOneMod d0 m) % m) (d1 * powNegOneMod d0 m) :=
        Int.emod_emod_of_dvd _ dvd_rfl
      calc (x1 - x0) * ((d1 * powNegOneMod d0 m) % m)
          ≡ (x1 - x0) * (d1 * powNegOneMod d0 m) [ZMOD m] := h2.mul_left _
        _ ≡ d0 * (d1 * powNegOneMod d0 m) [ZMOD m] := h0.symm.mul_right _
        _ = d1 * (d0 * powNegOneMod d0 m) := by ring
        _ ≡ d1 * 1 [ZMOD m] := hinv.mul_left _
        _ = d1 := by ring
        _ ≡ x2 - x1 [ZMOD m] := h1
  · intro hg
    simp only [retrouver_a]
    rw [if_neg hg]

/-- Witness for C6 on the inputs x0 = 0, x1 = 1, x2 = 3 and m = 7. -/
theorem C6_retrouver_a_spec_witness :
    ∃ r, retrouver_a 0 1 3 7 = some r ∧ 0 ≤ r ∧ r < 7 ∧
      Int.ModEq 7 ((1 - 0) * r) (3 - 1) :=
  (C6_retrouver_a_spec 0 1 3 7 (by norm_num)).1 (by decide)

/-- C7: the concrete demo scenario.  For LCG(seed 12345, a 1103515245,
c 12345, m 2^31) with 10 observed outputs, retrouver_m recovers exactly
2147483648, retrouver_a recovers exactly 1103515245, retrouver_c recovers
exactly 12345, and iterating x to (a*x + c) mod m from the 10th output
reproduces the next 5 outputs of the generator exactly. -/
theorem C7_scenario_concret :
    retrouver_m (LCG.generate (LCG.new 12345 1103515245 12345 (2 ^ 31)) 10).1 =
        some 2147483648 ∧
    retrouver_a ((LCG.generate (LCG.new 12345 1103515245 12345 (2 ^ 31)) 10).1.getD 0 0)
        ((LCG.generate (LCG.new 12345 1103515245 12345 (2 ^ 31)) 10).1.getD 1 0)
        ((LCG.generate (LCG.new 12345 1103515245 12345 (2 ^ 31)) 10).1.getD 2 0)
        2147483648 = some 1103515245 ∧
    retrouver_c ((LCG.generate (LCG.new 12345 1103515245 12345 (2 ^ 31)) 10).1.getD 0 0)
        ((LCG.generate (LCG.new 12345 1103515245 12345 (2 ^ 31)) 10).1.getD 1 0)
        1103515245 2147483648 = 12345 ∧
    lcgIter 1103515245 12345 2147483648
        ((LCG.generate (LCG.new 12345 1103515245 12345 (2 ^ 31)) 10).1.getD 9 0) 5 =
      (LCG.generate (LCG.generate (LCG.new 12345 1103515245 12345 (2 ^ 31)) 10).2 5).1 := by
  decide
